import Mathlib

/-!
# Verification of `custom_memory_allocator.c`

A shallow embedding of the fixed-capacity pool allocator in
`src/custom_memory_allocator.c`.  Arena addresses are modelled as byte
offsets from the pool base (`struct memory_block *pool`), so the data
pointer returned by `pool_alloc` is the offset `node + sizeof(struct
memory_node)` and the null pointer is offset `0` (no valid data pointer
can be `0` because every data pointer is at least
`sizeof(struct memory_block) + sizeof(struct memory_node)`).

Struct sizes are those of the LP64 ABI the program is compiled for
(x86-64 Linux): `sizeof(struct memory_block) = 40` (two pointers and
three `size_t`) and `sizeof(struct memory_node) = 40` (`size_t`, `bool`
padded to 8, two pointers to neighbours, one pointer to the pool).

`size_t` arithmetic is 64-bit and wraps: wherever the C program can
overflow (`size + (MIN_ALIGNMENT-1)` in `align_size`,
`aligned_size + sizeof(struct memory_node)`, and the accumulation into
`used_memory`) the model reduces modulo `2 ^ 64`.  Subtractions in the
program (`total_size - used_memory`, pointer differences giving gap
sizes, the decrements in `pool_free`) are modelled with truncated `Nat`
subtraction; under the allocator's intended invariant (`wf` below) each
of those differences is non-negative, so the model and the machine
agree there.

The linked list of `struct memory_node` records reachable from
`pool->first` is modelled as the Lean list `memory_block.first`, in
link order.  A record is its start offset plus its stored `size`; the
`prev`/`next`/`pool` pointer fields are represented by the list
structure itself.  One extra field, `memory_block.freed`, has no
counterpart in the C struct: it models the arena *memory* rather than
the pool header, recording the offsets of node headers whose `is_used`
flag has been set `false` by `pool_free` and not overwritten since.
`pool_free` must read that flag back from memory (`assert(node->is_used)`),
so the model needs it; an allocation whose new record overlaps such a
stale header invalidates it (its bytes are rewritten or become user
data), which `invalidate_freed` accounts for.
-/

/-- `MIN_ALIGNMENT` from the source. -/
def MIN_ALIGNMENT : Nat := 8

/-- `sizeof(struct memory_node)` on LP64. -/
def memory_node_size : Nat := 40

/-- `sizeof(struct memory_block)` on LP64. -/
def memory_block_size : Nat := 40

/-- `MIN_BLOCK_SIZE` from the source: `sizeof(struct memory_node) + MIN_ALIGNMENT`. -/
def MIN_BLOCK_SIZE : Nat := memory_node_size + MIN_ALIGNMENT

/-- Offset of the data area: the node placed by `pool_alloc` when the pool is
empty sits at `(void*)pool + sizeof(struct memory_block)`. -/
def pool_start : Nat := memory_block_size

/-- `2 ^ 64`, the modulus of `size_t` arithmetic. -/
def SIZE_T_MOD : Nat := 2 ^ 64

/-- One allocation record: the offset of its `struct memory_node` header from
the pool base, and the stored (aligned) size. -/
structure memory_node where
  addr : Nat
  size : Nat
deriving Repr, DecidableEq

/-- The pool header `struct memory_block`, plus the `freed` ghost field
described in the file comment.  `first` is the linked list of live records in
link order; `upper_limit` is the offset `pool->upper_limit - (void*)pool`,
which `create_memory_pool` sets to `size`. -/
structure memory_block where
  first : List memory_node
  upper_limit : Nat
  total_size : Nat
  used_memory : Nat
  num_allocations : Nat
  freed : List Nat
deriving Repr, DecidableEq

/-- `create_memory_pool`: returns `none` for `NULL`.  (The `malloc` failure
path is not modelled; the `0xCC` debug fill touches no modelled state.) -/
def create_memory_pool (size : Nat) : Option memory_block :=
  if size < MIN_BLOCK_SIZE then
    none
  else
    some { first := [], upper_limit := size, total_size := size,
           used_memory := 0, num_allocations := 0, freed := [] }

/-- `align_size`: `(size + (MIN_ALIGNMENT-1)) & ~(MIN_ALIGNMENT-1)` in
`size_t` arithmetic.  The sum wraps modulo `2^64`; masking the low three bits
of a 64-bit value is division and multiplication by 8. -/
def align_size (size : Nat) : Nat :=
  (size + (MIN_ALIGNMENT - 1)) % SIZE_T_MOD / MIN_ALIGNMENT * MIN_ALIGNMENT

/-- End offset of a record: `(void*)current + sizeof(struct memory_node) +
current->size`. -/
def node_end (n : memory_node) : Nat :=
  n.addr + memory_node_size + n.size

/-- The bytes a record accounts for in `used_memory`:
`size + sizeof(struct memory_node)`. -/
def footprint (n : memory_node) : Nat :=
  n.size + memory_node_size

/-- Sum of footprints of a record list. -/
def used_sum (l : List memory_node) : Nat :=
  (l.map footprint).sum

/-- Drop stale freed-header offsets whose 40-byte header region overlaps the
span `[a, a + sizeof(node) + sz)` just claimed by a new record: their bytes
are rewritten by the new header or handed to the caller as data. -/
def invalidate_freed (freed : List Nat) (a sz : Nat) : List Nat :=
  freed.filter (fun f =>
    decide (f + memory_node_size ≤ a) || decide (a + memory_node_size + sz ≤ f))

/-- The success epilogue of `pool_alloc` (lines 92-103, 108-121, 136-152):
install the new list, add `aligned_size + sizeof(struct memory_node)` to
`used_memory` (in `size_t` arithmetic), bump `num_allocations`, and return
`(void*)node + sizeof(struct memory_node)`. -/
def alloc_commit (pool : memory_block) (l : List memory_node) (addr aligned : Nat) :
    memory_block × Option Nat :=
  ({ pool with
      first := l,
      used_memory :=
        (pool.used_memory + (aligned + memory_node_size) % SIZE_T_MOD) % SIZE_T_MOD,
      num_allocations := pool.num_allocations + 1,
      freed := invalidate_freed pool.freed addr aligned },
   some (addr + memory_node_size))

/-- Start address of the gap following the current record: the next record's
header, or `pool->upper_limit` for the last record. -/
def next_boundary (upper : Nat) : List memory_node → Nat
  | [] => upper
  | n :: _ => n.addr

/-- The `while (current)` walk of `pool_alloc` (lines 125-156): for each
record compute `gap_size` to the next record (or to `upper_limit`); on the
first gap with `gap_size >= needv` splice a new record at `current_end` and
report its address. -/
def gap_insert (upper aligned needv : Nat) :
    List memory_node → Option (List memory_node × Nat)
  | [] => none
  | c :: rest =>
    let current_end := node_end c
    let gap_size := next_boundary upper rest - current_end
    if needv ≤ gap_size then
      some (c :: ⟨current_end, aligned⟩ :: rest, current_end)
    else
      match gap_insert upper aligned needv rest with
      | some (l, a) => some (c :: l, a)
      | none => none

/-- `pool_alloc`.  Returns the (possibly updated) pool together with the data
pointer (`none` for `NULL`).  Mirrors the source: reject a zero aligned size;
reject when `aligned_size + sizeof(node)` (in `size_t`) exceeds
`total_size - used_memory`; place at `pool_start` when the list is empty
(the source checks no gap there); else try the initial gap before `first`,
else walk the list. -/
def pool_alloc (pool : memory_block) (size : Nat) : memory_block × Option Nat :=
  let aligned_size := align_size size
  if aligned_size = 0 then
    (pool, none)
  else if pool.total_size - pool.used_memory <
      (aligned_size + memory_node_size) % SIZE_T_MOD then
    (pool, none)
  else
    match pool.first with
    | [] =>
        alloc_commit pool [⟨pool_start, aligned_size⟩] pool_start aligned_size
    | f :: rest =>
        if (aligned_size + memory_node_size) % SIZE_T_MOD ≤ f.addr - pool_start then
          alloc_commit pool (⟨pool_start, aligned_size⟩ :: f :: rest)
            pool_start aligned_size
        else
          match gap_insert pool.upper_limit aligned_size
              ((aligned_size + memory_node_size) % SIZE_T_MOD) (f :: rest) with
          | some (l, a) => alloc_commit pool l a aligned_size
          | none => (pool, none)

/-- Unlink the first record whose header sits at offset `a` (the list
surgery of `pool_free`, lines 176-184). -/
def remove_node (a : Nat) : List memory_node → List memory_node
  | [] => []
  | n :: rest => if n.addr = a then rest else n :: remove_node a rest

/-- Result of `pool_free`: normal return, a fired `assert(node->is_used)`,
or behaviour outside the model (the header bytes at `ptr - sizeof(node)`
were never written by this allocator, or were overwritten since). -/
inductive FreeResult where
  | ok (pool : memory_block)
  | fatal
  | unmodelled
deriving Repr, DecidableEq

/-- `pool_free`: no-op on `NULL`; recover the node at
`ptr - sizeof(struct memory_node)`; a live node is unlinked after the
statistics updates (`used_memory -= size + sizeof(node)`,
`num_allocations--`) and its header becomes a stale freed header; a node
whose stored flag is `false` fires `assert(node->is_used)`. -/
def pool_free (pool : memory_block) (ptr : Nat) : FreeResult :=
  if ptr = 0 then .ok pool
  else
    let a := ptr - memory_node_size
    match pool.first.find? (fun n => decide (n.addr = a)) with
    | some node =>
        .ok { pool with
                first := remove_node a pool.first,
                used_memory := pool.used_memory - (node.size + memory_node_size),
                num_allocations := pool.num_allocations - 1,
                freed := a :: pool.freed }
    | none => if a ∈ pool.freed then .fatal else .unmodelled

/-- `get_pool_stats`: `(total_size, used_memory, num_allocations)`. -/
def get_pool_stats (pool : memory_block) : Nat × Nat × Nat :=
  (pool.total_size, pool.used_memory, pool.num_allocations)

/-! ## The intended invariant -/

/-- The record chain starting no earlier than offset `c` is in strictly
ascending address order, non-overlapping, inside `[c, u)`, with non-zero
sizes. -/
def chainOK (c u : Nat) : List memory_node → Bool
  | [] => true
  | n :: rest =>
      decide (c ≤ n.addr) && decide (node_end n ≤ u) && decide (0 < n.size) &&
        chainOK (node_end n) u rest

/-- Every record's header offset and size are multiples of `MIN_ALIGNMENT`. -/
def nodes_aligned (l : List memory_node) : Bool :=
  l.all (fun n => decide (n.addr % MIN_ALIGNMENT = 0) &&
    decide (n.size % MIN_ALIGNMENT = 0))

/-- The bookkeeping invariant: `used_memory` is the footprint sum of the live
records and `num_allocations` their number. -/
def acct (p : memory_block) : Bool :=
  decide (p.used_memory = used_sum p.first) &&
    decide (p.num_allocations = p.first.length)

/-- Well-formedness of a pool state: the chain, alignment and bookkeeping
invariants, the header-field relations fixed by `create_memory_pool`, and
sanity of the stale-header ghost state. -/
def wf (p : memory_block) : Bool :=
  chainOK pool_start p.upper_limit p.first &&
  nodes_aligned p.first &&
  acct p &&
  decide (p.upper_limit = p.total_size) &&
  decide (MIN_BLOCK_SIZE ≤ p.total_size) &&
  decide (p.total_size < SIZE_T_MOD) &&
  p.freed.all (fun f => decide (pool_start ≤ f) &&
    p.first.all (fun n => decide (n.addr ≠ f)))

/-! ## Gaps

Gaps are not stored by the program; they are recomputed from the record list
exactly as `pool_alloc` and `visualize_pool` do.  `gapsList c u l` lists, in
address order, the pairs `(start, size)` of the maximal record-free intervals
determined by the chain `l` between cursor `c` and the bound `u` (zero-size
entries included, matching the comparisons the program performs). -/

/-- The gap before each record: `(cursor, record.addr - cursor)`. -/
def gapsBetween : Nat → List memory_node → List (Nat × Nat)
  | _, [] => []
  | c, n :: rest => (c, n.addr - c) :: gapsBetween (node_end n) rest

/-- The cursor after walking a chain: end of the last record, or the start
cursor for an empty chain. -/
def chain_end (c : Nat) : List memory_node → Nat
  | [] => c
  | n :: rest => chain_end (node_end n) rest

/-- All gaps between cursor `c` and bound `u`, trailing gap included. -/
def gapsList (c u : Nat) (l : List memory_node) : List (Nat × Nat) :=
  gapsBetween c l ++ [(chain_end c l, u - chain_end c l)]

/-- The gaps of a pool, in address order. -/
def gaps (p : memory_block) : List (Nat × Nat) :=
  gapsList pool_start p.upper_limit p.first

/-- The gaps inspected by the `while` walk: one per record, from its end to
the next boundary. -/
def walkGaps (upper : Nat) : List memory_node → List (Nat × Nat)
  | [] => []
  | c :: rest => (node_end c, next_boundary upper rest - node_end c) :: walkGaps upper rest

/-! ## Basic chain lemmas -/

theorem chainOK_mono {c c' u : Nat} {l : List memory_node} (h : chainOK c' u l = true)
    (hc : c ≤ c') : chainOK c u l = true := by
  cases l with
  | nil => rfl
  | cons n rest =>
    simp only [chainOK, Bool.and_eq_true, decide_eq_true_eq] at h ⊢
    exact ⟨⟨⟨le_trans hc h.1.1.1, h.1.1.2⟩, h.1.2⟩, h.2⟩

theorem chainOK_le {c u : Nat} {l : List memory_node} (h : chainOK c u l = true) :
    ∀ n ∈ l, c ≤ n.addr ∧ node_end n ≤ u ∧ 0 < n.size := by
  induction l generalizing c with
  | nil => intro n hn; cases hn
  | cons m rest ih =>
    simp only [chainOK, Bool.and_eq_true, decide_eq_true_eq] at h
    intro n hn
    rcases List.mem_cons.mp hn with rfl | hn
    · exact ⟨h.1.1.1, h.1.1.2, h.1.2⟩
    · have := ih h.2 n hn
      refine ⟨le_trans ?_ this.1, this.2⟩
      have : c ≤ m.addr := h.1.1.1
      simp only [node_end]; omega

theorem gapsList_cons (c u : Nat) (n : memory_node) (rest : List memory_node) :
    gapsList c u (n :: rest) = (c, n.addr - c) :: gapsList (node_end n) u rest := by
  simp [gapsList, gapsBetween, chain_end]

theorem gapsList_nil (c u : Nat) : gapsList c u [] = [(c, u - c)] := by
  simp [gapsList, gapsBetween, chain_end]

/-- Partition of the region `[c, u)` into record footprints and gaps. -/
theorem chain_partition {c u : Nat} {l : List memory_node}
    (h : chainOK c u l = true) (hcu : c ≤ u) :
    used_sum l + ((gapsList c u l).map Prod.snd).sum = u - c := by
  induction l generalizing c with
  | nil => simp [used_sum, gapsList_nil]
  | cons n rest ih =>
    simp only [chainOK, Bool.and_eq_true, decide_eq_true_eq] at h
    have h1 : c ≤ n.addr := h.1.1.1
    have h2 : node_end n ≤ u := h.1.1.2
    have ihr := ih h.2 h2
    simp only [gapsList_cons, List.map_cons, List.sum_cons, used_sum, List.map_cons,
      List.sum_cons] at ihr ⊢
    have hfo : footprint n + n.addr = node_end n := by
      simp only [footprint, node_end]; omega
    omega

/-- Every gap start is at least the cursor, and gap starts strictly increase. -/
theorem gaps_sorted {c u : Nat} {l : List memory_node} (h : chainOK c u l = true) :
    (∀ g ∈ gapsList c u l, c ≤ g.1) ∧
      (gapsList c u l).Pairwise (fun g g' => g.1 < g'.1) := by
  induction l generalizing c with
  | nil =>
    constructor
    · intro g hg; simp [gapsList_nil] at hg; simp [hg]
    · simp [gapsList_nil]
  | cons n rest ih =>
    simp only [chainOK, Bool.and_eq_true, decide_eq_true_eq] at h
    have h1 : c ≤ n.addr := h.1.1.1
    obtain ⟨ihlo, ihpw⟩ := ih h.2
    have hlt : c < node_end n := by simp only [node_end]; omega
    constructor
    · intro g hg
      rw [gapsList_cons] at hg
      rcases List.mem_cons.mp hg with rfl | hg
      · exact le_rfl
      · exact le_trans (le_of_lt hlt) (ihlo g hg)
    · rw [gapsList_cons]
      exact List.Pairwise.cons (fun g hg => lt_of_lt_of_le hlt (ihlo g hg)) ihpw

/-- Gap sizes never exceed the pool bound. -/
theorem gaps_size_le {c u : Nat} {l : List memory_node} (h : chainOK c u l = true) :
    ∀ g ∈ gapsList c u l, g.2 ≤ u := by
  induction l generalizing c with
  | nil => intro g hg; simp [gapsList_nil] at hg; simp [hg, Nat.sub_le]
  | cons n rest ih =>
    simp only [chainOK, Bool.and_eq_true, decide_eq_true_eq] at h
    intro g hg
    rw [gapsList_cons] at hg
    rcases List.mem_cons.mp hg with rfl | hg
    · have : n.addr ≤ u := by have := h.1.1.2; simp only [node_end] at this; omega
      simp; omega
    · exact ih h.2 g hg

/-! ## `find?` helpers -/

theorem find?_append_of_false {α : Type} {q : α → Bool} {l1 l2 : List α}
    (h : ∀ x ∈ l1, q x = false) : (l1 ++ l2).find? q = l2.find? q := by
  induction l1 with
  | nil => rfl
  | cons a l ih =>
    have ha := h a (List.mem_cons_self a l)
    simp only [List.cons_append, List.find?, ha]
    exact ih (fun x hx => h x (List.mem_cons_of_mem a hx))

theorem find?_first_min {l : List (Nat × Nat)} {q : Nat × Nat → Bool} {g0 : Nat × Nat}
    (hpw : l.Pairwise (fun g g' => g.1 < g'.1)) (h : l.find? q = some g0) :
    ∀ g ∈ l, q g = true → g0.1 ≤ g.1 := by
  induction l with
  | nil => cases h
  | cons a l ih =>
    rw [List.pairwise_cons] at hpw
    intro g hg hq
    by_cases ha : q a = true
    · simp only [List.find?, ha, Option.some.injEq] at h
      subst h
      rcases List.mem_cons.mp hg with rfl | hg
      · exact le_rfl
      · exact le_of_lt (hpw.1 g hg)
    · simp only [List.find?, Bool.not_eq_true] at h ha
      rw [ha] at h
      rcases List.mem_cons.mp hg with rfl | hg
      · rw [hq] at ha; cases ha
      · exact ih hpw.2 h g hg hq

/-! ## The walk computes first fit over the gap list -/

theorem gapsList_eq_walkGaps (u : Nat) (rest : List memory_node) (prev : memory_node) :
    gapsList (node_end prev) u rest = walkGaps u (prev :: rest) := by
  induction rest generalizing prev with
  | nil => simp [gapsList_nil, walkGaps, next_boundary]
  | cons n r ih =>
    rw [gapsList_cons, ih n]
    simp [walkGaps, next_boundary]

theorem gap_insert_addr (u a v : Nat) (l : List memory_node) :
    (gap_insert u a v l).map Prod.snd =
      ((walkGaps u l).find? (fun g => decide (v ≤ g.2))).map Prod.fst := by
  induction l with
  | nil => rfl
  | cons c rest ih =>
    by_cases hgap : v ≤ next_boundary u rest - node_end c
    · rw [walkGaps, List.find?_cons_of_pos _ (by simpa using hgap)]
      simp [gap_insert, hgap]
    · rw [walkGaps, List.find?_cons_of_neg _ (by simpa using hgap)]
      simp only [gap_insert, if_neg hgap]
      cases hrec : gap_insert u a v rest with
      | none => rw [hrec] at ih; simpa using ih
      | some la => rw [hrec] at ih; cases la with
        | mk l2 addr => simpa using ih

/-! ## Unpacking `wf` -/

theorem wf_parts {p : memory_block} (h : wf p = true) :
    chainOK pool_start p.upper_limit p.first = true ∧
    nodes_aligned p.first = true ∧
    p.used_memory = used_sum p.first ∧
    p.num_allocations = p.first.length ∧
    p.upper_limit = p.total_size ∧
    MIN_BLOCK_SIZE ≤ p.total_size ∧
    p.total_size < SIZE_T_MOD ∧
    ∀ f ∈ p.freed, pool_start ≤ f ∧ ∀ n ∈ p.first, n.addr ≠ f := by
  simp only [wf, acct, Bool.and_eq_true, decide_eq_true_eq, List.all_eq_true] at h
  obtain ⟨⟨⟨⟨⟨⟨h1, h2⟩, h3, h4⟩, h5⟩, h6⟩, h7⟩, h8⟩ := h
  refine ⟨h1, h2, h3, h4, h5, h6, h7, fun f hf => ?_⟩
  obtain ⟨hf1, hf2⟩ := h8 f hf
  exact ⟨hf1, fun n hn => hf2 n hn⟩

/-- A sufficient gap guarantees the budget check passes: the budget
`total_size - used_memory` equals the pool-header size plus the sum of all
gap sizes. -/
theorem gap_budget {p : memory_block} {g : Nat × Nat} {v : Nat} (h : wf p = true)
    (hg : g ∈ gaps p) (hv : v ≤ g.2) :
    ¬ p.total_size - p.used_memory < v := by
  obtain ⟨hchain, _, hused, _, hupper, htot, _, _⟩ := wf_parts h
  have hcu : pool_start ≤ p.upper_limit := by
    rw [hupper]
    simp only [pool_start, memory_block_size, MIN_BLOCK_SIZE, memory_node_size,
      MIN_ALIGNMENT] at htot ⊢
    omega
  have hpar := chain_partition hchain hcu
  have hmem : g.2 ∈ (gaps p).map Prod.snd := List.mem_map_of_mem Prod.snd hg
  have hsum : g.2 ≤ ((gaps p).map Prod.snd).sum :=
    List.single_le_sum (fun x _ => Nat.zero_le x) _ hmem
  simp only [gaps] at hpar hsum
  omega

/-! ## Characterisation of `pool_alloc` placements -/

theorem pool_alloc_gap_spec {p : memory_block} {s : Nat} {g0 : Nat × Nat}
    (hwf : wf p = true) (ha : align_size s ≠ 0)
    (hfind : (gaps p).find?
        (fun g => decide ((align_size s + memory_node_size) % SIZE_T_MOD ≤ g.2)) =
      some g0) :
    (pool_alloc p s).2 = some (g0.1 + memory_node_size) := by
  have hg0mem := List.mem_of_find?_eq_some hfind
  have hg0pred := List.find?_some hfind
  rw [decide_eq_true_eq] at hg0pred
  have hbudget := gap_budget hwf hg0mem hg0pred
  cases hfirst : p.first with
  | nil =>
    have hgaps : gaps p = [(pool_start, p.upper_limit - pool_start)] := by
      simp [gaps, hfirst, gapsList_nil]
    rw [hgaps] at hfind
    simp only [List.find?] at hfind
    rcases hdec : decide ((align_size s + memory_node_size) % SIZE_T_MOD ≤
        p.upper_limit - pool_start) with _ | _
    · rw [hdec] at hfind; cases hfind
    · rw [hdec] at hfind
      simp only [Option.some.injEq] at hfind
      subst hfind
      simp only [pool_alloc, hfirst, if_neg ha, if_neg hbudget, alloc_commit]
  | cons f rest =>
    have hgaps : gaps p =
        (pool_start, f.addr - pool_start) :: walkGaps p.upper_limit (f :: rest) := by
      simp only [gaps, hfirst, gapsList_cons]
      rw [gapsList_eq_walkGaps]
    rw [hgaps] at hfind
    by_cases hinit : (align_size s + memory_node_size) % SIZE_T_MOD ≤ f.addr - pool_start
    · rw [List.find?_cons_of_pos _ (by simpa using hinit)] at hfind
      simp only [Option.some.injEq] at hfind
      subst hfind
      simp only [pool_alloc, hfirst, if_neg ha, if_neg hbudget, if_pos hinit, alloc_commit]
    · rw [List.find?_cons_of_neg _ (by simpa using hinit)] at hfind
      have hins := gap_insert_addr p.upper_limit (align_size s)
        ((align_size s + memory_node_size) % SIZE_T_MOD) (f :: rest)
      rw [hfind] at hins
      cases hrec : gap_insert p.upper_limit (align_size s)
          ((align_size s + memory_node_size) % SIZE_T_MOD) (f :: rest) with
      | none => rw [hrec] at hins; cases hins
      | some la =>
        rw [hrec] at hins
        cases la with
        | mk l2 addr =>
          simp only [Option.map_some', Option.some.injEq] at hins
          simp only [pool_alloc, hfirst, if_neg ha, if_neg hbudget, if_neg hinit, hrec,
            alloc_commit]
          rw [hins]

theorem pool_alloc_fail_of_no_gap {p : memory_block} {s : Nat} {f : memory_node}
    {rest : List memory_node} (hfirst : p.first = f :: rest)
    (hnone : (gaps p).find?
        (fun g => decide ((align_size s + memory_node_size) % SIZE_T_MOD ≤ g.2)) =
      none) :
    pool_alloc p s = (p, none) := by
  have hgaps : gaps p =
      (pool_start, f.addr - pool_start) :: walkGaps p.upper_limit (f :: rest) := by
    simp only [gaps, hfirst, gapsList_cons]
    rw [gapsList_eq_walkGaps]
  rw [hgaps] at hnone
  rw [List.find?_eq_none] at hnone
  have hinit : ¬ (align_size s + memory_node_size) % SIZE_T_MOD ≤ f.addr - pool_start := by
    have := hnone (pool_start, f.addr - pool_start) (List.mem_cons_self _ _)
    simpa using this
  have hwalk : ∀ g ∈ walkGaps p.upper_limit (f :: rest),
      ¬ (align_size s + memory_node_size) % SIZE_T_MOD ≤ g.2 := by
    intro g hg
    have := hnone g (List.mem_cons_of_mem _ hg)
    simpa using this
  have hins : gap_insert p.upper_limit (align_size s)
      ((align_size s + memory_node_size) % SIZE_T_MOD) (f :: rest) = none := by
    have haddr := gap_insert_addr p.upper_limit (align_size s)
      ((align_size s + memory_node_size) % SIZE_T_MOD) (f :: rest)
    rw [List.find?_eq_none.mpr (fun g hg => by simpa using hwalk g hg)] at haddr
    cases hrec : gap_insert p.upper_limit (align_size s)
        ((align_size s + memory_node_size) % SIZE_T_MOD) (f :: rest) with
    | none => rfl
    | some la => rw [hrec] at haddr; cases la; simp at haddr
  by_cases ha : align_size s = 0
  · simp only [pool_alloc, if_pos ha]
  by_cases hbudget : p.total_size - p.used_memory <
      (align_size s + memory_node_size) % SIZE_T_MOD
  · simp only [pool_alloc, if_neg ha, if_pos hbudget]
  · simp only [pool_alloc, hfirst, if_neg ha, if_neg hbudget, if_neg hinit, hins]

/-! ## `pool_free` helpers -/

theorem find?_node {c u a : Nat} {l : List memory_node} {R : memory_node}
    (h : chainOK c u l = true) (hR : R ∈ l) (ha : R.addr = a) :
    l.find? (fun n => decide (n.addr = a)) = some R := by
  induction l generalizing c with
  | nil => cases hR
  | cons n rest ih =>
    simp only [chainOK, Bool.and_eq_true, decide_eq_true_eq] at h
    rcases List.mem_cons.mp hR with rfl | hR
    · exact List.find?_cons_of_pos _ (by simpa using ha)
    · have hrest := chainOK_le h.2 R hR
      have hne : n.addr ≠ a := by
        have : node_end n ≤ R.addr := hrest.1
        simp only [node_end, memory_node_size] at this
        omega
      rw [List.find?_cons_of_neg _ (by simpa using hne)]
      exact ih h.2 hR

theorem remove_node_subset {a : Nat} {l : List memory_node} :
    ∀ n ∈ remove_node a l, n ∈ l := by
  induction l with
  | nil => intro n hn; cases hn
  | cons m rest ih =>
    intro n hn
    simp only [remove_node] at hn
    by_cases hm : m.addr = a
    · rw [if_pos hm] at hn; exact List.mem_cons_of_mem m hn
    · rw [if_neg hm] at hn
      rcases List.mem_cons.mp hn with rfl | hn
      · exact List.mem_cons_self _ _
      · exact List.mem_cons_of_mem m (ih n hn)

theorem remove_node_mem {a : Nat} {l : List memory_node} {n : memory_node}
    (hn : n ∈ l) (hne : n.addr ≠ a) : n ∈ remove_node a l := by
  induction l with
  | nil => cases hn
  | cons m rest ih =>
    simp only [remove_node]
    by_cases hm : m.addr = a
    · rw [if_pos hm]
      rcases List.mem_cons.mp hn with rfl | hn
      · exact absurd hm hne
      · exact hn
    · rw [if_neg hm]
      rcases List.mem_cons.mp hn with rfl | hn
      · exact List.mem_cons_self _ _
      · exact List.mem_cons_of_mem m (ih hn)

theorem remove_node_used_sum {a : Nat} {l : List memory_node} {R : memory_node}
    (h : l.find? (fun n => decide (n.addr = a)) = some R) :
    used_sum l = used_sum (remove_node a l) + footprint R := by
  induction l with
  | nil => cases h
  | cons m rest ih =>
    by_cases hm : m.addr = a
    · rw [List.find?_cons_of_pos _ (by simpa using hm)] at h
      simp only [Option.some.injEq] at h
      subst h
      simp only [remove_node, if_pos hm, used_sum, List.map_cons, List.sum_cons]
      omega
    · rw [List.find?_cons_of_neg _ (by simpa using hm)] at h
      have := ih h
      simp only [remove_node, if_neg hm, used_sum, List.map_cons, List.sum_cons] at this ⊢
      omega

theorem remove_node_length {a : Nat} {l : List memory_node} {R : memory_node}
    (h : l.find? (fun n => decide (n.addr = a)) = some R) :
    l.length = (remove_node a l).length + 1 := by
  induction l with
  | nil => cases h
  | cons m rest ih =>
    by_cases hm : m.addr = a
    · simp [remove_node, if_pos hm]
    · rw [List.find?_cons_of_neg _ (by simpa using hm)] at h
      have := ih h
      simp only [remove_node, if_neg hm, List.length_cons] at this ⊢
      omega

theorem chainOK_remove {c u a : Nat} {l : List memory_node}
    (h : chainOK c u l = true) : chainOK c u (remove_node a l) = true := by
  induction l generalizing c with
  | nil => rfl
  | cons m rest ih =>
    simp only [chainOK, Bool.and_eq_true, decide_eq_true_eq] at h
    simp only [remove_node]
    by_cases hm : m.addr = a
    · rw [if_pos hm]
      refine chainOK_mono h.2 ?_
      have : c ≤ m.addr := h.1.1.1
      simp only [node_end]; omega
    · rw [if_neg hm]
      simp only [chainOK, Bool.and_eq_true, decide_eq_true_eq]
      exact ⟨h.1, ih h.2⟩

theorem remove_node_addr_ne {c u a : Nat} {l : List memory_node} {R : memory_node}
    (h : chainOK c u l = true)
    (hf : l.find? (fun n => decide (n.addr = a)) = some R) :
    ∀ n ∈ remove_node a l, n.addr ≠ a := by
  induction l generalizing c with
  | nil => intro n hn; cases hn
  | cons m rest ih =>
    simp only [chainOK, Bool.and_eq_true, decide_eq_true_eq] at h
    by_cases hm : m.addr = a
    · intro n hn
      rw [remove_node, if_pos hm] at hn
      have hle := (chainOK_le h.2 n hn).1
      simp only [node_end, memory_node_size] at hle
      omega
    · rw [List.find?_cons_of_neg _ (by simpa using hm)] at hf
      intro n hn
      rw [remove_node, if_neg hm] at hn
      rcases List.mem_cons.mp hn with rfl | hn
      · exact hm
      · exact ih h.2 hf n hn

/-- Freeing the data pointer of a live record: the exact state update
performed by `pool_free`. -/
theorem pool_free_live {p : memory_block} {R : memory_node}
    (hchain : chainOK pool_start p.upper_limit p.first = true) (hR : R ∈ p.first) :
    pool_free p (R.addr + memory_node_size) = .ok
      { p with first := remove_node R.addr p.first,
               used_memory := p.used_memory - footprint R,
               num_allocations := p.num_allocations - 1,
               freed := R.addr :: p.freed } := by
  have hptr : ¬ R.addr + memory_node_size = 0 := by
    simp only [memory_node_size]; omega
  have ha : R.addr + memory_node_size - memory_node_size = R.addr := by omega
  have hfind := find?_node hchain hR rfl
  simp only [pool_free, if_neg hptr, ha, hfind, footprint]

/-- `pool_free` of a live record preserves the invariant. -/
theorem pool_free_preserves_wf {p : memory_block} {R : memory_node}
    (hwf : wf p = true) (hR : R ∈ p.first) :
    wf { p with first := remove_node R.addr p.first,
                used_memory := p.used_memory - footprint R,
                num_allocations := p.num_allocations - 1,
                freed := R.addr :: p.freed } = true := by
  obtain ⟨hchain, halign, hused, hcount, hupper, htot, hlt, hfreed⟩ := wf_parts hwf
  have hfind := find?_node hchain hR rfl
  have hsum := remove_node_used_sum hfind
  have hlen := remove_node_length hfind
  simp only [wf, acct, Bool.and_eq_true, decide_eq_true_eq, List.all_eq_true]
  refine ⟨⟨⟨⟨⟨⟨?_, ?_⟩, ?_, ?_⟩, ?_⟩, ?_⟩, ?_⟩, ?_⟩
  · exact chainOK_remove hchain
  · simp only [nodes_aligned, List.all_eq_true] at halign
    simp only [nodes_aligned, List.all_eq_true]
    exact fun n hn => halign n (remove_node_subset n hn)
  · simp only [hused]; omega
  · simp only [hcount, hlen]; omega
  · exact hupper
  · exact htot
  · exact hlt
  · intro f hf
    rcases List.mem_cons.mp hf with rfl | hf
    · refine ⟨by simpa using decide_eq_true ((chainOK_le hchain R hR).1), ?_⟩
      intro n hn
      simpa using remove_node_addr_ne hchain hfind n hn
    · obtain ⟨hf1, hf2⟩ := hfreed f hf
      refine ⟨by simpa using decide_eq_true hf1, ?_⟩
      intro n hn
      simpa using hf2 n (remove_node_subset n hn)

/-! ## Returned pointers are 8-aligned -/

theorem gap_insert_addr_aligned {u a v : Nat} {l l2 : List memory_node} {addr : Nat}
    (halign : ∀ n ∈ l, n.addr % MIN_ALIGNMENT = 0 ∧ n.size % MIN_ALIGNMENT = 0)
    (h : gap_insert u a v l = some (l2, addr)) : addr % MIN_ALIGNMENT = 0 := by
  induction l generalizing l2 addr with
  | nil => cases h
  | cons c rest ih =>
    simp only [gap_insert] at h
    by_cases hgap : v ≤ next_boundary u rest - node_end c
    · rw [if_pos hgap] at h
      simp only [Option.some.injEq, Prod.mk.injEq] at h
      have hc := halign c (List.mem_cons_self _ _)
      have : node_end c % MIN_ALIGNMENT = 0 := by
        simp only [node_end, memory_node_size, MIN_ALIGNMENT] at hc ⊢
        omega
      rw [← h.2]
      exact this
    · rw [if_neg hgap] at h
      cases hrec : gap_insert u a v rest with
      | none => rw [hrec] at h; cases h
      | some la =>
        rw [hrec] at h
        cases la with
        | mk l3 addr3 =>
          simp only [Option.some.injEq, Prod.mk.injEq] at h
          rw [← h.2]
          exact ih (fun n hn => halign n (List.mem_cons_of_mem c hn)) hrec

theorem pool_alloc_ptr_aligned {p : memory_block} {s d : Nat}
    (halign : nodes_aligned p.first = true)
    (h : (pool_alloc p s).2 = some d) : d % MIN_ALIGNMENT = 0 := by
  by_cases ha : align_size s = 0
  · simp only [pool_alloc, if_pos ha] at h; cases h
  by_cases hb : p.total_size - p.used_memory <
      (align_size s + memory_node_size) % SIZE_T_MOD
  · simp only [pool_alloc, if_neg ha, if_pos hb] at h; cases h
  cases hfirst : p.first with
  | nil =>
    simp only [pool_alloc, hfirst, if_neg ha, if_neg hb, alloc_commit,
      Option.some.injEq] at h
    rw [← h]; decide
  | cons f rest =>
    rw [hfirst] at halign
    simp only [nodes_aligned, List.all_eq_true, Bool.and_eq_true,
      decide_eq_true_eq] at halign
    by_cases hinit : (align_size s + memory_node_size) % SIZE_T_MOD ≤ f.addr - pool_start
    · simp only [pool_alloc, hfirst, if_neg ha, if_neg hb, if_pos hinit, alloc_commit,
        Option.some.injEq] at h
      rw [← h]; decide
    · cases hrec : gap_insert p.upper_limit (align_size s)
          ((align_size s + memory_node_size) % SIZE_T_MOD) (f :: rest) with
      | none =>
        simp only [pool_alloc, hfirst, if_neg ha, if_neg hb, if_neg hinit, hrec] at h
        cases h
      | some la =>
        cases la with
        | mk l2 addr =>
          simp only [pool_alloc, hfirst, if_neg ha, if_neg hb, if_neg hinit, hrec,
            alloc_commit, Option.some.injEq] at h
          have haddr : addr % MIN_ALIGNMENT = 0 :=
            gap_insert_addr_aligned (fun n hn => halign n hn) hrec
          rw [← h]
          simp only [MIN_ALIGNMENT, memory_node_size] at haddr ⊢
          omega

/-! ## Splitting chains around a record -/

theorem chain_end_append (c : Nat) (l1 l2 : List memory_node) :
    chain_end c (l1 ++ l2) = chain_end (chain_end c l1) l2 := by
  induction l1 generalizing c with
  | nil => rfl
  | cons n rest ih => simp only [List.cons_append, chain_end, List.append_eq, ih]

theorem gapsBetween_append (c : Nat) (l1 l2 : List memory_node) :
    gapsBetween c (l1 ++ l2) = gapsBetween c l1 ++ gapsBetween (chain_end c l1) l2 := by
  induction l1 generalizing c with
  | nil => rfl
  | cons n rest ih =>
    simp only [List.cons_append, gapsBetween, chain_end, List.append_eq, ih]

theorem gapsList_append (c u : Nat) (l1 l2 : List memory_node) :
    gapsList c u (l1 ++ l2) = gapsBetween c l1 ++ gapsList (chain_end c l1) u l2 := by
  simp only [gapsList, gapsBetween_append, chain_end_append, List.append_assoc]

theorem chainOK_append {c u : Nat} {l1 l2 : List memory_node}
    (h : chainOK c u (l1 ++ l2) = true) :
    chainOK c u l1 = true ∧ chainOK (chain_end c l1) u l2 = true := by
  induction l1 generalizing c with
  | nil => exact ⟨rfl, h⟩
  | cons n rest ih =>
    simp only [List.cons_append, chainOK, Bool.and_eq_true, decide_eq_true_eq] at h
    obtain ⟨hh, ht⟩ := h
    obtain ⟨h1, h2⟩ := ih ht
    refine ⟨?_, ?_⟩
    · simp only [chainOK, Bool.and_eq_true, decide_eq_true_eq]
      exact ⟨hh, h1⟩
    · simpa only [chain_end] using h2

theorem chain_end_ge {c u : Nat} {l : List memory_node} (h : chainOK c u l = true) :
    c ≤ chain_end c l := by
  induction l generalizing c with
  | nil => exact le_rfl
  | cons n rest ih =>
    simp only [chainOK, Bool.and_eq_true, decide_eq_true_eq] at h
    have h1 : c ≤ n.addr := h.1.1.1
    have := ih h.2
    simp only [chain_end]
    simp only [node_end] at this ⊢
    omega

theorem remove_node_split {a : Nat} {pre post : List memory_node} {R : memory_node}
    (hpre : ∀ x ∈ pre, x.addr ≠ a) (hR : R.addr = a) :
    remove_node a (pre ++ R :: post) = pre ++ post := by
  induction pre with
  | nil => simp [remove_node, hR]
  | cons x rest ih =>
    simp only [List.cons_append, remove_node,
      if_neg (hpre x (List.mem_cons_self x rest)), List.append_eq]
    rw [ih (fun y hy => hpre y (List.mem_cons_of_mem x hy))]

theorem chain_le_end {c u : Nat} {l : List memory_node} (h : chainOK c u l = true) :
    ∀ n ∈ l, node_end n ≤ chain_end c l := by
  induction l generalizing c with
  | nil => intro n hn; cases hn
  | cons m rest ih =>
    simp only [chainOK, Bool.and_eq_true, decide_eq_true_eq] at h
    intro n hn
    rcases List.mem_cons.mp hn with rfl | hn
    · simp only [chain_end]
      exact chain_end_ge (chainOK_mono h.2 le_rfl)
    · simpa only [chain_end] using ih h.2 n hn

/-! ## Concrete pool states used by the claim theorems

`pool150` and `pool200` are the results of `create_memory_pool 150` and
`create_memory_pool 200`.  `poolS` is reached from `create_memory_pool 240`
by three allocations of 8 bytes (records at offsets 40, 88, 136) followed by
freeing the middle one (data pointer 128).  `poolW` is reached from
`create_memory_pool 480` by allocating 104, 8, 8, 8, 8, 8 bytes (records at
offsets 40, 184, 232, 280, 328, 376) and then freeing the records at 40, 232
and 328 (data pointers 80, 272, 368). -/

def pool150 : memory_block := ⟨[], 150, 150, 0, 0, []⟩

def pool200 : memory_block := ⟨[], 200, 200, 0, 0, []⟩

def poolS : memory_block := ⟨[⟨40, 8⟩, ⟨136, 8⟩], 240, 240, 96, 2, [88]⟩

def poolW : memory_block :=
  ⟨[⟨184, 8⟩, ⟨280, 8⟩, ⟨376, 8⟩], 480, 480, 144, 3, [328, 232, 40]⟩

/-! ## Claim C1 -/

/-- C1: the claim that after every operation `used_memory` equals the sum of
`size + sizeof(struct memory_node)` over the reachable records fails on the
code: `size_t` overflow in `aligned_size + sizeof(struct memory_node)` lets
`pool_alloc(pool, 2^64 - 8)` succeed on a fresh 150-byte pool.  The model
evaluates the code at that input: the allocation returns data pointer 80 and
records a node of size `2^64 - 8`, but `used_memory` becomes 32 while the
footprint sum is `2^64 + 32`. -/
theorem C1_overflow_breaks_used_accounting :
    create_memory_pool 150 = some pool150 ∧
    (pool_alloc pool150 (2 ^ 64 - 8)).2 = some 80 ∧
    (pool_alloc pool150 (2 ^ 64 - 8)).1.used_memory = 32 ∧
    used_sum (pool_alloc pool150 (2 ^ 64 - 8)).1.first = 2 ^ 64 + 32 ∧
    acct (pool_alloc pool150 (2 ^ 64 - 8)).1 = false := by
  refine ⟨by decide, by decide, by decide, by decide, by decide⟩

/-! ## Claim C3 -/

/-- C3: the claim that every reachable record lies within the data area
fails on the code: the empty-pool placement path of `pool_alloc` checks only
the budget `total_size - used_memory`, which wrongly counts the 40-byte pool
header as free space.  On `create_memory_pool 150` the call
`pool_alloc(pool, 72)` succeeds and writes a record spanning `[40, 152)` in a
150-byte pool — past `upper_limit`. -/
theorem C3_record_beyond_bounds :
    create_memory_pool 150 = some pool150 ∧
    (pool_alloc pool150 72).2 = some 80 ∧
    (pool_alloc pool150 72).1.first = [⟨40, 72⟩] ∧
    node_end ⟨40, 72⟩ = 152 ∧
    (pool_alloc pool150 72).1.upper_limit = 150 ∧
    chainOK pool_start (pool_alloc pool150 72).1.upper_limit
      (pool_alloc pool150 72).1.first = false := by
  refine ⟨by decide, by decide, by decide, by decide, by decide, by decide⟩

/-! ## Claim C4 -/

/-- C4 counterexample: `align_size` is computed in wrapping `size_t`
arithmetic, so for `s = 2^64 - 1` the sum `s + 7` wraps and the aligned size
is 0, refuting `align_size s ≥ s`. -/
theorem C4_counterexample :
    align_size (2 ^ 64 - 1) = 0 ∧ ¬ 2 ^ 64 - 1 ≤ align_size (2 ^ 64 - 1) := by
  refine ⟨by decide, by decide⟩

/-- C4 (amended): for every requested size `s` with `s + MIN_ALIGNMENT ≤ 2^64`
(no `size_t` wrap in `s + 7`), `align_size s` is at least `s`, less than
`s + 8`, and a multiple of 8; and every data pointer returned by a successful
`pool_alloc` on a pool whose records are 8-aligned is 8-aligned (its offset
from the pool base, hence from the arena base, is a multiple of 8). -/
theorem C4_alignment_laws :
    (∀ s : Nat, s + MIN_ALIGNMENT ≤ 2 ^ 64 →
      s ≤ align_size s ∧ align_size s < s + MIN_ALIGNMENT ∧
        align_size s % MIN_ALIGNMENT = 0) ∧
    (∀ (p : memory_block) (s d : Nat), nodes_aligned p.first = true →
      (pool_alloc p s).2 = some d → d % MIN_ALIGNMENT = 0) := by
  constructor
  · intro s hs
    have hpow : (2 : Nat) ^ 64 = 18446744073709551616 := by norm_num
    have hmod : (s + (MIN_ALIGNMENT - 1)) % SIZE_T_MOD = s + 7 := by
      apply Nat.mod_eq_of_lt
      simp only [SIZE_T_MOD, MIN_ALIGNMENT]
      simp only [MIN_ALIGNMENT, hpow] at hs ⊢
      omega
    have hdm := Nat.div_add_mod (s + 7) 8
    have hm : (s + 7) % 8 < 8 := Nat.mod_lt _ (by norm_num)
    have hval : align_size s = (s + 7) / 8 * 8 := by
      simp only [align_size]
      rw [hmod]
      simp only [MIN_ALIGNMENT]
    refine ⟨?_, ?_, ?_⟩
    · rw [hval]; omega
    · rw [hval]; simp only [MIN_ALIGNMENT]; omega
    · rw [hval]; simp only [MIN_ALIGNMENT]
      exact Nat.mul_mod_left _ _
  · intro p s d halign h
    exact pool_alloc_ptr_aligned halign h

/-- Witness for C4: the laws evaluated at `s = 12` and at the allocation of
12 bytes from a fresh 150-byte pool, whose data pointer is 80. -/
theorem C4_alignment_laws_witness :
    (12 ≤ align_size 12 ∧ align_size 12 < 12 + MIN_ALIGNMENT ∧
      align_size 12 % MIN_ALIGNMENT = 0) ∧ 80 % MIN_ALIGNMENT = 0 :=
  ⟨C4_alignment_laws.1 12 (by decide),
   C4_alignment_laws.2 pool150 12 80 (by decide) (by decide)⟩

/-! ## Claim C5 -/

/-- C5 counterexample: with the LP64 record header of 40 bytes, the
documented scenario does not run on a 150-byte pool: `allocate(12)` succeeds
(aligned to 16, footprint 56), but `allocate(20)` (aligned to 24, needing
64 contiguous bytes) finds only a 54-byte trailing gap `[96, 150)` and
returns `NULL`, so the scenario's second allocation already fails. -/
theorem C5_counterexample :
    create_memory_pool 150 = some pool150 ∧
    align_size 12 = 16 ∧ align_size 20 = 24 ∧
    pool_alloc pool150 12 = (⟨[⟨40, 16⟩], 150, 150, 56, 1, []⟩, some 80) ∧
    (pool_alloc ⟨[⟨40, 16⟩], 150, 150, 56, 1, []⟩ 20).2 = none := by
  refine ⟨by decide, by decide, by decide, by decide, by decide⟩

/-- C5 (amended): the same scenario on a 200-byte pool.  `allocate(12)` → A
(data 80, rounds to 16), `allocate(20)` → B (data 136, rounds to 24),
`free(A)`, `allocate(4)` → C (rounds to 8) reuses A's freed span (C's record
sits at offset 40 and returns A's data pointer 80); afterwards `stats`
reports `count = 2`, `used = 112 = footprint(B) + footprint(C)`, and the
capacity 200. -/
theorem C5_amended_scenario :
    create_memory_pool 200 = some pool200 ∧
    align_size 12 = 16 ∧ align_size 20 = 24 ∧ align_size 4 = 8 ∧
    pool_alloc pool200 12 = (⟨[⟨40, 16⟩], 200, 200, 56, 1, []⟩, some 80) ∧
    pool_alloc ⟨[⟨40, 16⟩], 200, 200, 56, 1, []⟩ 20 =
      (⟨[⟨40, 16⟩, ⟨96, 24⟩], 200, 200, 120, 2, []⟩, some 136) ∧
    pool_free ⟨[⟨40, 16⟩, ⟨96, 24⟩], 200, 200, 120, 2, []⟩ 80 =
      .ok ⟨[⟨96, 24⟩], 200, 200, 64, 1, [40]⟩ ∧
    pool_alloc ⟨[⟨96, 24⟩], 200, 200, 64, 1, [40]⟩ 4 =
      (⟨[⟨40, 8⟩, ⟨96, 24⟩], 200, 200, 112, 2, []⟩, some 80) ∧
    get_pool_stats ⟨[⟨40, 8⟩, ⟨96, 24⟩], 200, 200, 112, 2, []⟩ = (200, 112, 2) ∧
    footprint ⟨96, 24⟩ + footprint ⟨40, 8⟩ = 112 := by
  refine ⟨by decide, by decide, by decide, by decide, by decide, by decide, by decide,
    by decide, by decide, by decide⟩

/-! ## Claim C9 -/

/-- C9: a zero-byte request is always rejected: `align_size 0 = 0` and
`pool_alloc` returns `NULL` from the `aligned_size == 0` check before any
placement search, leaving the pool untouched. -/
theorem C9_zero_request_rejected (p : memory_block) :
    pool_alloc p 0 = (p, none) ∧ align_size 0 = 0 := by
  constructor
  · have h0 : align_size 0 = 0 := by decide
    simp [pool_alloc, h0]
  · decide

/-- Witness for C9 at a fresh 150-byte pool. -/
theorem C9_zero_request_rejected_witness :
    pool_alloc pool150 0 = (pool150, none) ∧ align_size 0 = 0 :=
  C9_zero_request_rejected pool150

/-! ## Claim C10 -/

/-- C10: `pool_alloc` is atomic on failure — every `NULL` return (zero
aligned size, failed budget check, or exhausted placement search) happens
before any mutation, so the pool state is returned unchanged. -/
theorem C10_alloc_failure_atomic (p : memory_block) (s : Nat)
    (h : (pool_alloc p s).2 = none) : (pool_alloc p s).1 = p := by
  by_cases ha : align_size s = 0
  · simp only [pool_alloc, if_pos ha]
  by_cases hb : p.total_size - p.used_memory <
      (align_size s + memory_node_size) % SIZE_T_MOD
  · simp only [pool_alloc, if_neg ha, if_pos hb]
  cases hfirst : p.first with
  | nil =>
    simp only [pool_alloc, hfirst, if_neg ha, if_neg hb, alloc_commit] at h
    cases h
  | cons f rest =>
    by_cases hinit : (align_size s + memory_node_size) % SIZE_T_MOD ≤ f.addr - pool_start
    · simp only [pool_alloc, hfirst, if_neg ha, if_neg hb, if_pos hinit, alloc_commit] at h
      cases h
    · cases hrec : gap_insert p.upper_limit (align_size s)
          ((align_size s + memory_node_size) % SIZE_T_MOD) (f :: rest) with
      | none =>
        simp only [pool_alloc, hfirst, if_neg ha, if_neg hb, if_neg hinit, hrec]
      | some la =>
        cases la with
        | mk l2 addr =>
          simp only [pool_alloc, hfirst, if_neg ha, if_neg hb, if_neg hinit, hrec,
            alloc_commit] at h
          cases h

/-- Witness for C10: allocating 64 bytes from `poolS` fails (no contiguous
gap), and the pool is unchanged. -/
theorem C10_alloc_failure_atomic_witness : (pool_alloc poolS 64).1 = poolS :=
  C10_alloc_failure_atomic poolS 64 (by decide)

/-! ## Claim C2 -/

/-- C2: first-fit placement.  On a well-formed pool, whenever some gap
(initial, between records, or trailing) is large enough for the aligned size
plus the record header, `pool_alloc` places the new record at the start of
the sufficient gap with the lowest start address: the returned data pointer
is that gap's start plus the header size.  In particular, of two sufficient
gaps at addresses `A < B` the allocation lands at `A`. -/
theorem C2_first_fit (p : memory_block) (s : Nat) (g : Nat × Nat)
    (hwf : wf p = true) (ha : align_size s ≠ 0) (hg : g ∈ gaps p)
    (hsuff : align_size s + memory_node_size ≤ g.2) :
    ∃ g0 ∈ gaps p, align_size s + memory_node_size ≤ g0.2 ∧
      (∀ g2 ∈ gaps p, align_size s + memory_node_size ≤ g2.2 → g0.1 ≤ g2.1) ∧
      (pool_alloc p s).2 = some (g0.1 + memory_node_size) := by
  obtain ⟨hchain, _, _, _, hupper, htot, hlt, _⟩ := wf_parts hwf
  have hgle : g.2 ≤ p.upper_limit := gaps_size_le hchain g hg
  have hmod : (align_size s + memory_node_size) % SIZE_T_MOD =
      align_size s + memory_node_size := by
    apply Nat.mod_eq_of_lt
    have h1 : align_size s + memory_node_size ≤ p.upper_limit := le_trans hsuff hgle
    rw [hupper] at h1
    omega
  cases hfind : (gaps p).find?
      (fun g2 => decide ((align_size s + memory_node_size) % SIZE_T_MOD ≤ g2.2)) with
  | none =>
    exfalso
    rw [List.find?_eq_none] at hfind
    exact hfind g hg (by simpa [hmod] using hsuff)
  | some g0 =>
    have hmem := List.mem_of_find?_eq_some hfind
    have hpred := List.find?_some hfind
    rw [decide_eq_true_eq, hmod] at hpred
    have hpw : (gaps p).Pairwise (fun g1 g2 => g1.1 < g2.1) := (gaps_sorted hchain).2
    have hmin := find?_first_min hpw hfind
    refine ⟨g0, hmem, hpred, ?_, pool_alloc_gap_spec hwf ha hfind⟩
    intro g2 hg2 hs2
    exact hmin g2 hg2 (by simpa [hmod] using hs2)

/-- Witness for C2: a fresh 150-byte pool has the single gap `(40, 110)`;
allocating 12 bytes (56 with header) lands there, at data pointer 80. -/
theorem C2_first_fit_witness :
    ∃ g0 ∈ gaps pool150, align_size 12 + memory_node_size ≤ g0.2 ∧
      (∀ g2 ∈ gaps pool150, align_size 12 + memory_node_size ≤ g2.2 → g0.1 ≤ g2.1) ∧
      (pool_alloc pool150 12).2 = some (g0.1 + memory_node_size) :=
  C2_first_fit pool150 12 (40, 110) (by decide) (by decide) (by decide) (by decide)

/-! ## Claim C6 -/

/-- C6 counterexample: both failure kinds return the very same value `NULL`,
so they are not distinguishable from the returned value.  `poolS` (capacity
240, records at 40 and 136, 144 free bytes, largest gap 56) answers
`pool_alloc` of 200 bytes (need 240 > 144: over budget) and of 64 bytes
(need 104 ≤ 144 but every gap is smaller: fragmentation) with the identical
result `(poolS, NULL)`. -/
theorem C6_counterexample :
    wf poolS = true ∧
    pool_alloc poolS 200 = (poolS, none) ∧
    pool_alloc poolS 64 = (poolS, none) ∧
    poolS.total_size - poolS.used_memory <
      (align_size 200 + memory_node_size) % SIZE_T_MOD ∧
    ¬ poolS.total_size - poolS.used_memory <
      (align_size 64 + memory_node_size) % SIZE_T_MOD ∧
    (∀ g ∈ gaps poolS, g.2 < (align_size 64 + memory_node_size) % SIZE_T_MOD) ∧
    (pool_alloc poolS 200).2 = (pool_alloc poolS 64).2 := by
  refine ⟨by decide, by decide, by decide, by decide, by decide, by decide, by decide⟩

/-- C6 (amended): `pool_alloc` does have the two stated failure conditions —
the budget check `aligned + header > total - used`, and, for a non-empty
pool, a placement search in which no gap is sufficient — but both paths
return the same value `NULL` (`none`), so the caller cannot tell them apart
from the returned value.  (For an empty pool the search path performs no gap
check, see C3.) -/
theorem C6_failure_modes (p : memory_block) (s : Nat) (ha : align_size s ≠ 0) :
    (p.total_size - p.used_memory < (align_size s + memory_node_size) % SIZE_T_MOD →
      pool_alloc p s = (p, none)) ∧
    (∀ f rest, p.first = f :: rest →
      ¬ p.total_size - p.used_memory <
          (align_size s + memory_node_size) % SIZE_T_MOD →
      (∀ g ∈ gaps p, g.2 < (align_size s + memory_node_size) % SIZE_T_MOD) →
      pool_alloc p s = (p, none)) := by
  constructor
  · intro hb
    simp only [pool_alloc, if_neg ha, if_pos hb]
  · intro f rest hfirst hb hgaps
    apply pool_alloc_fail_of_no_gap hfirst
    rw [List.find?_eq_none]
    intro g2 hg2
    have := hgaps g2 hg2
    simp only [decide_eq_true_eq]
    omega

/-- Witness for C6: both failure modes exercised on `poolS`. -/
theorem C6_failure_modes_witness :
    pool_alloc poolS 200 = (poolS, none) ∧ pool_alloc poolS 64 = (poolS, none) :=
  ⟨(C6_failure_modes poolS 200 (by decide)).1 (by decide),
   (C6_failure_modes poolS 64 (by decide)).2 ⟨40, 8⟩ [⟨136, 8⟩] (by decide)
     (by decide) (by decide)⟩

/-! ## Claim C7 -/

/-- C7: the `pool_free` contract.  Freeing the null pointer is a no-op that
leaves the pool unchanged.  For a non-null pointer whose recovered header
(`ptr - sizeof(struct memory_node)`) was written by this allocator — it is a
live record, or a header marked free and not overwritten since — the fatal
`assert(node->is_used)` fires exactly when the recovered record is not a
live (in-use) record; otherwise the free succeeds, decrementing
`used_memory` by `size + sizeof(struct memory_node)`, decrementing
`num_allocations`, and unlinking exactly that record. -/
theorem C7_free_contract (p : memory_block) (ptr : Nat) (hwf : wf p = true)
    (htracked : ptr = 0 ∨ (∃ R ∈ p.first, R.addr + memory_node_size = ptr) ∨
      (ptr - memory_node_size ∈ p.freed ∧ ptr ≠ 0)) :
    (ptr = 0 → pool_free p ptr = .ok p) ∧
    (pool_free p ptr = .fatal ↔
      ptr ≠ 0 ∧ ∀ R ∈ p.first, R.addr + memory_node_size ≠ ptr) ∧
    (∀ R ∈ p.first, R.addr + memory_node_size = ptr →
      ∃ p', pool_free p ptr = .ok p' ∧
        p'.used_memory + footprint R = p.used_memory ∧
        p'.num_allocations + 1 = p.num_allocations ∧
        p'.first.length + 1 = p.first.length ∧
        (∀ n ∈ p.first, n.addr ≠ R.addr → n ∈ p'.first) ∧
        (∀ n ∈ p'.first, n ∈ p.first ∧ n.addr ≠ R.addr)) := by
  obtain ⟨hchain, _, hused, hcount, _, _, _, hfreed⟩ := wf_parts hwf
  have hlive : ∀ R ∈ p.first, R.addr + memory_node_size = ptr →
      ∃ p', pool_free p ptr = .ok p' ∧
        p'.used_memory + footprint R = p.used_memory ∧
        p'.num_allocations + 1 = p.num_allocations ∧
        p'.first.length + 1 = p.first.length ∧
        (∀ n ∈ p.first, n.addr ≠ R.addr → n ∈ p'.first) ∧
        (∀ n ∈ p'.first, n ∈ p.first ∧ n.addr ≠ R.addr) := by
    intro R hR hptr
    have hok := pool_free_live hchain hR
    rw [hptr] at hok
    have hfind := find?_node hchain hR (rfl : R.addr = R.addr)
    have hfp : footprint R ≤ p.used_memory := by
      rw [hused]
      exact List.single_le_sum (fun x _ => Nat.zero_le x) _
        (List.mem_map_of_mem footprint hR)
    have hnum : 1 ≤ p.num_allocations := by
      rw [hcount]
      exact List.length_pos.mpr (List.ne_nil_of_mem hR)
    have hlen := remove_node_length hfind
    refine ⟨_, hok, ?_, ?_, ?_, ?_, ?_⟩
    · simp only
      omega
    · simp only
      omega
    · simp only
      omega
    · intro n hn hne
      exact remove_node_mem hn hne
    · intro n hn
      exact ⟨remove_node_subset n hn, remove_node_addr_ne hchain hfind n hn⟩
  refine ⟨?_, ?_, hlive⟩
  · intro h0
    simp [pool_free, h0]
  · constructor
    · intro hfat
      by_cases h0 : ptr = 0
      · rw [show pool_free p ptr = .ok p by simp [pool_free, h0]] at hfat
        cases hfat
      refine ⟨h0, ?_⟩
      intro R hR hptr
      obtain ⟨p', hok, -⟩ := hlive R hR hptr
      rw [hok] at hfat
      cases hfat
    · rintro ⟨h0, hnolive⟩
      rcases htracked with h0' | ⟨R, hR, hptr⟩ | ⟨hfr, -⟩
      · exact absurd h0' h0
      · exact absurd hptr (hnolive R hR)
      · have ha40 : pool_start ≤ ptr - memory_node_size := (hfreed _ hfr).1
        have hptr80 : memory_node_size ≤ ptr := by
          simp only [pool_start, memory_block_size, memory_node_size] at ha40 ⊢
          omega
        have hfind : p.first.find?
            (fun n => decide (n.addr = ptr - memory_node_size)) = none := by
          rw [List.find?_eq_none]
          intro n hn
          simp only [decide_eq_true_eq]
          intro heq
          exact hnolive n hn (by omega)
        simp only [pool_free, if_neg h0, hfind, if_pos hfr]

/-- Witness for C7 at `poolS` and the live record at offset 136 (data
pointer 176). -/
theorem C7_free_contract_witness :
    ((176 : Nat) = 0 → pool_free poolS 176 = .ok poolS) ∧
    (pool_free poolS 176 = .fatal ↔
      (176 : Nat) ≠ 0 ∧ ∀ R ∈ poolS.first, R.addr + memory_node_size ≠ 176) ∧
    (∀ R ∈ poolS.first, R.addr + memory_node_size = 176 →
      ∃ p', pool_free poolS 176 = .ok p' ∧
        p'.used_memory + footprint R = poolS.used_memory ∧
        p'.num_allocations + 1 = poolS.num_allocations ∧
        p'.first.length + 1 = poolS.first.length ∧
        (∀ n ∈ poolS.first, n.addr ≠ R.addr → n ∈ p'.first) ∧
        (∀ n ∈ p'.first, n ∈ poolS.first ∧ n.addr ≠ R.addr)) :=
  C7_free_contract poolS 176 (by decide)
    (Or.inr (Or.inl ⟨⟨136, 8⟩, by decide, by decide⟩))

/-! ## Claim C8 -/

/-- C8 counterexample: implicit coalescing does make the merged span exist,
but first-fit placement does not guarantee the subsequent exactly-fitting
request lands *in* it.  In `poolW` the record `⟨280, 8⟩` has free space on
both sides (left gap `[232, 280)`, right gap `[328, 376)`); freeing it (data
pointer 320) merges `[232, 376)`, a 144-byte span, and a request of 104
bytes (aligned 104, need 144) exactly fits it — but the allocation lands in
the equally large *earlier* gap `[40, 184)` instead, returning data pointer
80, not `232 + 40 = 272`. -/
theorem C8_counterexample :
    wf poolW = true ∧
    chain_end pool_start [⟨184, 8⟩] = 232 ∧
    (232 : Nat) < 280 ∧ node_end ⟨280, 8⟩ < 376 ∧
    align_size 104 + memory_node_size = 376 - 232 ∧
    pool_free poolW 320 =
      .ok ⟨[⟨184, 8⟩, ⟨376, 8⟩], 480, 480, 96, 2, [280, 328, 232, 40]⟩ ∧
    (pool_alloc ⟨[⟨184, 8⟩, ⟨376, 8⟩], 480, 480, 96, 2, [280, 328, 232, 40]⟩ 104).2 =
      some 80 ∧
    (80 : Nat) ≠ 232 + memory_node_size := by
  refine ⟨by decide, by decide, by decide, by decide, by decide, by decide, by decide,
    by decide⟩

/-- C8 (amended): freeing a record `R` that has free space on both sides
merges the two gaps and `R`'s footprint into one span, and a subsequent
request whose aligned size plus header exactly equals the merged span
succeeds; it is placed at the start of the merged span provided every gap at
a lower address is too small for the request (first-fit, cf. C2). -/
theorem C8_coalescing (p : memory_block) (pre post : List memory_node)
    (R : memory_node) (s : Nat) (hwf : wf p = true)
    (hsplit : p.first = pre ++ R :: post)
    (hgl : chain_end pool_start pre < R.addr)
    (hgr : node_end R < next_boundary p.upper_limit post)
    (hs : align_size s + memory_node_size =
      next_boundary p.upper_limit post - chain_end pool_start pre)
    (hearly : ∀ g ∈ gapsBetween pool_start pre,
      g.2 < next_boundary p.upper_limit post - chain_end pool_start pre) :
    ∃ p', pool_free p (R.addr + memory_node_size) = .ok p' ∧
      (pool_alloc p' s).2 =
        some (chain_end pool_start pre + memory_node_size) := by
  obtain ⟨hchain, -, -, -, hupper, htot, hlt, -⟩ := wf_parts hwf
  have hchain2 : chainOK pool_start p.upper_limit (pre ++ R :: post) = true := by
    rw [← hsplit]; exact hchain
  obtain ⟨hpre, hrest⟩ := chainOK_append hchain2
  have hrestc := hrest
  simp only [chainOK, Bool.and_eq_true, decide_eq_true_eq] at hrestc
  have hRu : node_end R ≤ p.upper_limit := hrestc.1.1.2
  have hRs : 0 < R.size := hrestc.1.2
  have hpost : chainOK (node_end R) p.upper_limit post = true := hrestc.2
  have hprene : ∀ x ∈ pre, x.addr ≠ R.addr := by
    intro x hx
    have h1 : node_end x ≤ chain_end pool_start pre := chain_le_end hpre x hx
    have h2 : x.addr < node_end x := by
      simp only [node_end, memory_node_size]; omega
    omega
  have hR : R ∈ p.first := by
    rw [hsplit]
    exact List.mem_append_right _ (List.mem_cons_self _ _)
  have hok := pool_free_live hchain hR
  have hrm : remove_node R.addr p.first = pre ++ post := by
    rw [hsplit]
    exact remove_node_split hprene rfl
  have hUle : next_boundary p.upper_limit post ≤ p.upper_limit := by
    cases post with
    | nil => exact le_rfl
    | cons N post2 =>
      have := (chainOK_le hpost N (List.mem_cons_self _ _)).2.1
      simp only [next_boundary, node_end, memory_node_size] at this ⊢
      omega
  have hmodM : (align_size s + memory_node_size) % SIZE_T_MOD =
      next_boundary p.upper_limit post - chain_end pool_start pre := by
    rw [hs]
    apply Nat.mod_eq_of_lt
    omega
  have ha : align_size s ≠ 0 := by
    have hne : node_end R = R.addr + 40 + R.size := by
      simp [node_end, memory_node_size]
    have h40 : memory_node_size = 40 := rfl
    omega
  refine ⟨_, hok, ?_⟩
  have hgaps' : gaps { p with
                        first := remove_node R.addr p.first,
                        used_memory := p.used_memory - footprint R,
                        num_allocations := p.num_allocations - 1,
                        freed := R.addr :: p.freed } =
      gapsBetween pool_start pre ++
        gapsList (chain_end pool_start pre) p.upper_limit post := by
    simp only [gaps, hrm, gapsList_append]
  have hfind : (gaps { p with
                        first := remove_node R.addr p.first,
                        used_memory := p.used_memory - footprint R,
                        num_allocations := p.num_allocations - 1,
                        freed := R.addr :: p.freed }).find?
      (fun g => decide ((align_size s + memory_node_size) % SIZE_T_MOD ≤ g.2)) =
      some (chain_end pool_start pre,
        next_boundary p.upper_limit post - chain_end pool_start pre) := by
    rw [hgaps']
    rw [find?_append_of_false (fun g hg => by
      have := hearly g hg
      rw [hmodM]
      simp only [decide_eq_false_iff_not, decide_eq_true_eq]
      omega)]
    cases post with
    | nil =>
      rw [gapsList_nil]
      rw [List.find?_cons_of_pos _ (by
        rw [hmodM]
        simp only [next_boundary, decide_eq_true_eq]
        exact le_rfl)]
      simp only [next_boundary]
    | cons N post2 =>
      rw [gapsList_cons]
      rw [List.find?_cons_of_pos _ (by
        rw [hmodM]
        simp only [next_boundary, decide_eq_true_eq]
        exact le_rfl)]
      simp only [next_boundary]
  exact pool_alloc_gap_spec (pool_free_preserves_wf hwf hR) ha hfind

/-- Witness for C8: pool of capacity 320 with records at 40, 96, 152; the
middle record (data pointer 136) has 48-byte free spans on both sides;
freeing it merges `[88, 152)` (64 bytes), and allocating 24 bytes (need 64)
lands at its start, data pointer 128. -/
theorem C8_coalescing_witness :
    ∃ p', pool_free ⟨[⟨40, 8⟩, ⟨96, 8⟩, ⟨152, 8⟩], 320, 320, 144, 3, []⟩
        ((⟨96, 8⟩ : memory_node).addr + memory_node_size) = .ok p' ∧
      (pool_alloc p' 24).2 =
        some (chain_end pool_start [⟨40, 8⟩] + memory_node_size) :=
  C8_coalescing ⟨[⟨40, 8⟩, ⟨96, 8⟩, ⟨152, 8⟩], 320, 320, 144, 3, []⟩
    [⟨40, 8⟩] [⟨152, 8⟩] ⟨96, 8⟩ 24 (by decide) (by decide) (by decide)
    (by decide) (by decide) (by decide)
